import Mathlib

/-!
# Verification of the PDF tool's document transformation engine

Shallow embedding of the core algorithms of the repository:

* page reordering (`PageThumbnailView` in `src/0129/src/components/page_views.py`):
  keyboard moves `move_selected_up/down/to_top/to_bottom` and the
  drag-reorder step `_on_motion`;
* page-range parsing and splitting (`src/0112/0112/src/services/pdf_split.py`);
* merging (`src/0118/src/services/pdf_merge.py`);
* size-targeted compression search (`src/0122/src/services/pdf_compress.py`);
* password protection (`src/0122/src/services/pdf_password.py` and the
  validation in `src/0129/src/ui/password_tab.py`).

The reorder state is modelled by the list of original page indices in display
order (the `page_index` fields of `self.page_items`, in list order) together
with the set of selected original page indices (`self.selected_pages`,
modelled as a `List Nat` whose membership is what matters).
-/

instance {ε α : Type} [DecidableEq ε] [DecidableEq α] : DecidableEq (Except ε α) :=
  fun x y =>
    match x, y with
    | .ok a, .ok b => decidable_of_iff (a = b) (by simp)
    | .error e, .error f => decidable_of_iff (e = f) (by simp)
    | .ok _, .error _ => isFalse (by simp)
    | .error _, .ok _ => isFalse (by simp)

namespace PDFTool

/-! ## Page reordering (`page_views.py`) -/

/-- One adjacent transposition: `swapAdj l i` exchanges positions `i` and
`i+1` of `l` (the Python statement
`items[idx], items[idx+1] = items[idx+1], items[idx]`); out-of-range indices
leave the list unchanged (the Python code never reaches that case thanks to
its boundary guards). -/
def swapAdj {α : Type} : List α → Nat → List α
  | a :: b :: t, 0 => b :: a :: t
  | x :: t, n + 1 => x :: swapAdj t n
  | l, _ => l

/-- Display positions of the currently selected pages, in ascending order:
`[i for i, it in enumerate(self.page_items) if it["page_index"] in self.selected_pages]`. -/
def selPositions (items : List Nat) (sel : List Nat) : List Nat :=
  (List.range items.length).filter (fun i => items.getD i 0 ∈ sel)

/-- Model of `PageThumbnailView.move_selected_down` (`page_views.py:740-763`): no-op on
empty selection or when the bottom display slot is selected; otherwise swaps
each selected display position with its successor, processing positions in
descending order. -/
def move_selected_down (items : List Nat) (sel : List Nat) : List Nat :=
  if sel = [] then items
  else
    let selIdx := selPositions items sel
    if items.length - 1 ∈ selIdx then items
    else selIdx.reverse.foldl (fun l i => swapAdj l i) items

/-- Model of `PageThumbnailView.move_selected_up` (`page_views.py:715-738`): no-op on
empty selection or when display slot 0 is selected; otherwise swaps each
selected display position with its predecessor, processing positions in
ascending order. -/
def move_selected_up (items : List Nat) (sel : List Nat) : List Nat :=
  if sel = [] then items
  else
    let selIdx := selPositions items sel
    if 0 ∈ selIdx then items
    else selIdx.foldl (fun l i => swapAdj l (i - 1)) items

/-- Model of `PageThumbnailView.move_selected_to_top` (`page_views.py:765-785`):
selected items (in display order) followed by the rest.  Iterating the
items and dispatching on membership is exactly a `filter` partition. -/
def move_selected_to_top (items : List Nat) (sel : List Nat) : List Nat :=
  if sel = [] then items
  else items.filter (fun x => decide (x ∈ sel)) ++
       items.filter (fun x => !decide (x ∈ sel))

/-- Model of `PageThumbnailView.move_selected_to_bottom` (`page_views.py:787-807`). -/
def move_selected_to_bottom (items : List Nat) (sel : List Nat) : List Nat :=
  if sel = [] then items
  else items.filter (fun x => !decide (x ∈ sel)) ++
       items.filter (fun x => decide (x ∈ sel))

/-- One drag step, `PageThumbnailView._on_motion` (`page_views.py:604-669`),
reduced to its effect on the display order.  `startIdx` is the display
position recorded by `_on_press`; `targetIdx` is `nearest_index(event.y_root)`
(hence `< items.length` whenever items exist). -/
def drag_step (items : List Nat) (sel : List Nat) (startIdx targetIdx : Nat) :
    List Nat :=
  let selIdx := selPositions items sel
  if selIdx = [] then
    -- single-item branch: pop `startIdx`, reinsert at `targetIdx`
    if targetIdx = startIdx then items
    else if h : startIdx < items.length then
      let item := items.get ⟨startIdx, h⟩
      let rest := items.eraseIdx startIdx
      rest.insertIdx (min targetIdx rest.length) item
    else items
  else
    if selIdx.headD 0 ≤ targetIdx ∧ targetIdx ≤ selIdx.getLastD 0 then items
    else
      let block := items.filter (fun x => decide (x ∈ sel))
      let others := items.filter (fun x => !decide (x ∈ sel))
      let beforeCount :=
        ((List.range items.length).filter
          (fun j => decide (j < targetIdx) && !decide (j ∈ selIdx))).length
      others.take beforeCount ++ block ++ others.drop beforeCount

/-- Model of `PageThumbnailView.get_page_order` (`page_views.py:709-710`): the display
order, i.e. the list of original page indices itself. -/
def get_page_order (items : List Nat) : List Nat := items

/-- One reorder interaction, carrying the selection active when it fires. -/
inductive MoveOp : Type
  | up (sel : List Nat)
  | down (sel : List Nat)
  | toTop (sel : List Nat)
  | toBottom (sel : List Nat)
  | drag (sel : List Nat) (startIdx targetIdx : Nat)

/-- Apply one reorder interaction to the display order. -/
def applyMove (items : List Nat) : MoveOp → List Nat
  | .up sel => move_selected_up items sel
  | .down sel => move_selected_down items sel
  | .toTop sel => move_selected_to_top items sel
  | .toBottom sel => move_selected_to_bottom items sel
  | .drag sel s t => drag_step items sel s t

/-- Apply a sequence of reorder interactions. -/
def applyMoves (items : List Nat) (ops : List MoveOp) : List Nat :=
  ops.foldl applyMove items

/-- Formalisation of the spec's "one contiguous block": the display
positions are consecutive naturals. -/
def contiguous : List Nat → Bool
  | [] => true
  | [_] => true
  | a :: b :: t => decide (b = a + 1) && contiguous (b :: t)

/-! ## Page-range parsing (`src/0112/0112/src/services/pdf_split.py:27-95`) -/

/-- The distinct `ValueError`s raised by `parse_page_ranges`, one per raise
site.  The spec's `Malformed` covers `rangeNotInt`/`notInt`, its `OutOfRange`
covers `rangeBelowOne`/`rangeTooLarge`/`belowOne`/`tooLarge`, and its
`InvalidOrder` is `invalidOrder`. -/
inductive RangeError : Type
  | rangeNotInt
  | rangeBelowOne
  | invalidOrder
  | rangeTooLarge
  | notInt
  | belowOne
  | tooLarge
  deriving DecidableEq, Repr

/-- Value of a nonempty all-digit character sequence. -/
def digitsVal? (cs : List Char) : Option Nat :=
  if cs = [] then none
  else if cs.all Char.isDigit then
    some (cs.foldl (fun acc c => acc * 10 + (c.toNat - 48)) 0)
  else none

/-- Model of Python `int(s)` on an ASCII token: an optional sign followed by
one or more digits; anything else raises `ValueError`. -/
def pyInt? (cs : List Char) : Option Int :=
  match cs with
  | '+' :: rest => (digitsVal? rest).map (fun n => (n : Int))
  | '-' :: rest => (digitsVal? rest).map (fun n => -(n : Int))
  | _ => (digitsVal? cs).map (fun n => (n : Int))

/-- Whitespace-trim of a character sequence (Python `str.strip()`). -/
def trimChars (cs : List Char) : List Char :=
  ((cs.dropWhile Char.isWhitespace).reverse.dropWhile Char.isWhitespace).reverse

/-- Python `str.split(c)`: split at every occurrence of `c`. -/
def splitOnChar (c : Char) : List Char → List (List Char)
  | [] => [[]]
  | a :: rest =>
    let r := splitOnChar c rest
    if a = c then [] :: r
    else
      match r with
      | [] => [[a]]
      | h :: t => (a :: h) :: t

/-- One loop iteration of `parse_page_ranges` over a trimmed, nonempty token:
the zero-based indices the token contributes, or the error it raises. -/
def parseToken (part : List Char) (totalPages : Int) :
    Except RangeError (List Nat) :=
  if part.contains '-' then
    -- `start_str, end_str = part.split("-", 1)` then `int(·.strip())`
    match pyInt? (trimChars (part.takeWhile (fun c => c != '-'))),
        pyInt? (trimChars ((part.dropWhile (fun c => c != '-')).drop 1)) with
    | some start, some stop =>
      if start < 1 ∨ stop < 1 then .error .rangeBelowOne
      else if start > stop then .error .invalidOrder
      else if stop > totalPages then .error .rangeTooLarge
      else .ok ((List.range (stop.toNat + 1 - start.toNat)).map
          (fun k => start.toNat + k - 1))
    | _, _ => .error .rangeNotInt
  else
    match pyInt? part with
    | some n =>
      if n < 1 then .error .belowOne
      else if n > totalPages then .error .tooLarge
      else .ok [n.toNat - 1]
    | none => .error .notInt

/-- The `for part in parts` loop: accumulate each token's indices into the
result set (kept as a duplicate-free list), aborting at the first raised
error. -/
def collectTokens (totalPages : Int) :
    List (List Char) → List Nat → Except RangeError (List Nat)
  | [], acc => .ok acc
  | p :: rest, acc =>
    match parseToken p totalPages with
    | .error e => .error e
    | .ok idxs => collectTokens totalPages rest
        (idxs.foldl (fun a i => if i ∈ a then a else i :: a) acc)

/-- Model of `parse_page_ranges` (`pdf_split.py:27-95`): zero-page guard, empty-input
guard, comma split with trimming and empty-token removal, token loop into a
set, final ascending sort (Python's `sorted(result_set)`: the ascending
enumeration of the collected duplicate-free indices). -/
def parse_page_ranges (text : String) (totalPages : Int) :
    Except RangeError (List Nat) :=
  if totalPages ≤ 0 then .ok []
  else
    let t := trimChars text.toList
    if t = [] then .ok []
    else
      let parts := ((splitOnChar ',' t).map trimChars).filter (fun p => p != [])
      match collectTokens totalPages parts [] with
      | .error e => .error e
      | .ok s => .ok (s.insertionSort (· ≤ ·))

/-! ## Split (`pdf_split.py:98-192`) -/

/-- The `ValueError`s of `split_pdf`, one per raise site. -/
inductive SplitError : Type
  | badMode
  | encrypted
  | emptyPdf
  | noTargets
  | indexOutOfRange
  | nothingRemains
  deriving DecidableEq, Repr

/-- Outcome of a successful split: the `SplitResult` counts plus the page
indices written to the output, in order. -/
structure SplitOutcome where
  total_pages : Nat
  kept_pages : Nat
  pages : List Int
  deriving DecidableEq, Repr

/-- Lines 157-165: the pages the output keeps.  `keep` mode sorts the
deduplicated targets ascending; `delete` mode keeps the complement of the
target set in original order. -/
def pages_to_keep (mode : String) (totalPages : Nat) (targets : List Int) :
    List Int :=
  if mode = "keep" then (targets.dedup).insertionSort (· ≤ ·)
  else ((List.range totalPages).map (fun (i : Nat) => (i : Int))).filter
    (fun i => !(targets.contains i))

/-- Model of `split_pdf` (`pdf_split.py:98-192`) on an abstract source document
(`encrypted` flag and page count).  `Except.error` models a raised
`ValueError`: the output file is only written on success. -/
def split_pdf (encrypted : Bool) (totalPages : Nat) (mode : String)
    (targets : List Int) : Except SplitError SplitOutcome :=
  if mode ≠ "keep" ∧ mode ≠ "delete" then .error .badMode
  else if encrypted then .error .encrypted
  else if totalPages = 0 then .error .emptyPdf
  else if targets = [] then .error .noTargets
  else if targets.any (fun idx => decide (idx < 0) ||
      decide ((totalPages : Int) ≤ idx)) then .error .indexOutOfRange
  else
    let kept := pages_to_keep mode totalPages targets
    if kept = [] then .error .nothingRemains
    else .ok ⟨totalPages, kept.length, kept⟩

/-! ## Merge (`src/0118/src/services/pdf_merge.py:22-103`) -/

/-- An input document as `merge_pdfs` observes it: its file name, whether
`PdfReader` reports it encrypted, and its pages (abstract ids). -/
structure MergeDoc where
  name : String
  encrypted : Bool
  pages : List Nat
  deriving DecidableEq, Repr

/-- The errors `merge_pdfs` raises before writing any output. -/
inductive MergeError : Type
  | noInput
  | encryptedSource (name : String)
  deriving DecidableEq, Repr

/-- The `for i, path in enumerate(input_paths)` loop: append each source's
pages to the writer, raising on the first encrypted source. -/
def mergeLoop : List MergeDoc → List Nat → Except MergeError (List Nat)
  | [], acc => .ok acc
  | d :: rest, acc =>
    if d.encrypted then .error (.encryptedSource d.name)
    else mergeLoop rest (acc ++ d.pages)

/-- Model of `merge_pdfs`: the output file (the concatenated page list) is written
only after the loop finishes, so `Except.error` means no output exists. -/
def merge_pdfs (inputs : List MergeDoc) : Except MergeError (List Nat) :=
  if inputs = [] then .error .noInput
  else mergeLoop inputs []

/-! ## Compression search (`src/0122/src/services/pdf_compress.py`) -/

/-- Line 17: the quality-vs-size ladder, least compressed first. -/
def COMPRESSION_PRESETS : List String :=
  ["/prepress", "/printer", "/default", "/ebook", "/screen"]

/-- Model of `level_to_start_index` (lines 39-57): clamp the level to 1-5, subtract
one. -/
def level_to_start_index (level : Int) : Nat :=
  (max 1 (min 5 level) - 1).toNat

/-- The `while True` search of `compress_pdf_auto` (lines 163-175), recorded
as the list of invoked preset indices.  `sizeAt i` is the byte size (in MB,
modelled as an exact rational) that the external Ghostscript oracle produces
at rung `i`; each iteration invokes it once, then stops if the target is met
or the ladder is exhausted. -/
def searchCalls (sizeAt : Nat → ℚ) (target : ℚ) (lastIdx cur : Nat) :
    List Nat :=
  if sizeAt cur ≤ target ∨ lastIdx ≤ cur then [cur]
  else cur :: searchCalls sizeAt target lastIdx (cur + 1)
termination_by lastIdx - cur
decreasing_by
  simp only [not_or] at *
  omega

/-- The preset indices at which `compress_pdf_auto` invokes Ghostscript:
one invocation at the (clamped) start index without a target, the iterative
search otherwise (lines 154-175). -/
def compress_calls (presets : List String) (startIndex : Int)
    (targetMb : Option ℚ) (sizeAt : Nat → ℚ) : List Nat :=
  let lastIdx := presets.length - 1
  let cur := (max 0 (min startIndex (lastIdx : Int))).toNat
  match targetMb with
  | none => [cur]
  | some t => searchCalls sizeAt t lastIdx cur

/-- Model of `compress_pdfs` (lines 230-234): the start index is derived from the
level only when no target size is given; otherwise the search starts at the
least-compressed rung. -/
def compress_start_index (level : Int) (targetMb : Option ℚ) : Int :=
  match targetMb with
  | none => (level_to_start_index level : Int)
  | some _ => 0

/-- Lines 177-184 of `compress_pdf_auto`: the reported reduction, in
percent (Python floats modelled as exact rationals). -/
def reduced_percent (origBytes newBytes : Nat) : ℚ :=
  if 0 < origBytes then (1 - (newBytes : ℚ) / (origBytes : ℚ)) * 100 else 0

/-! ## Password protection
(`src/0122/src/services/pdf_password.py`, validation in
`src/0129/src/ui/password_tab.py:150-171`) -/

/-- The two validation failures of `_execute_set` that abort before any
worker thread (and hence any engine call or output file) is started. -/
inductive PasswordSetError : Type
  | emptyPassword
  | noRestrictionSelected
  deriving DecidableEq, Repr

/-- The request `_execute_set` hands to `set_pdf_password` when validation
passes. -/
structure PasswordRequest where
  password : List Char
  require_open_password : Bool
  forbid_copy : Bool
  forbid_print : Bool
  deriving DecidableEq, Repr

/-- Model of the `_execute_set` validation (`password_tab.py:150-171`): `mode` is
`"view"` (Mode A) or `"restrict"` (Mode B); entries are stripped; Mode B
additionally requires at least one restriction flag.  `Except.error` models
the warning dialog: the function returns and no engine call happens. -/
def validate_protection_request (mode : String)
    (viewEntry restrictEntry : String) (forbidCopy forbidPrint : Bool) :
    Except PasswordSetError PasswordRequest :=
  if mode = "view" then
    let password := trimChars viewEntry.toList
    if password = [] then .error .emptyPassword
    else .ok ⟨password, true, false, false⟩
  else
    let password := trimChars restrictEntry.toList
    if password = [] then .error .emptyPassword
    else if !(forbidCopy || forbidPrint) then .error .noRestrictionSelected
    else .ok ⟨password, false, forbidCopy, forbidPrint⟩

/-! ### Every reorder interaction permutes the display order -/

theorem swapAdj_perm {α : Type} (l : List α) (i : Nat) : List.Perm (swapAdj l i) l := by
  induction l generalizing i with
  | nil => simp [swapAdj]
  | cons a t ih =>
    cases i with
    | zero =>
      cases t with
      | nil => simp [swapAdj]
      | cons b t' => exact List.Perm.swap a b t'
    | succ n =>
      simp only [swapAdj]
      exact (ih n).cons a

theorem foldl_swapAdj_perm {α : Type} (ds : List Nat) (l : List α) :
    List.Perm (ds.foldl (fun l i => swapAdj l i) l) l := by
  induction ds generalizing l with
  | nil => exact List.Perm.refl l
  | cons d ds ih => exact (ih (swapAdj l d)).trans (swapAdj_perm l d)

theorem foldl_swapAdj_pred_perm {α : Type} (ds : List Nat) (l : List α) :
    List.Perm (ds.foldl (fun l i => swapAdj l (i - 1)) l) l := by
  induction ds generalizing l with
  | nil => exact List.Perm.refl l
  | cons d ds ih => exact (ih (swapAdj l (d - 1))).trans (swapAdj_perm l (d - 1))

theorem foldr_swapAdj_perm {α : Type} (ds : List Nat) (l : List α) :
    List.Perm (ds.foldr (fun x y => swapAdj y x) l) l := by
  induction ds with
  | nil => exact List.Perm.refl l
  | cons d ds ih => exact (swapAdj_perm _ d).trans ih

theorem move_selected_down_perm (items sel : List Nat) :
    List.Perm (move_selected_down items sel) items := by
  by_cases h1 : sel = []
  · simp [move_selected_down, h1]
  · by_cases h2 : items.length - 1 ∈ selPositions items sel
    · simp [move_selected_down, h1, h2]
    · simpa [move_selected_down, h1, h2] using foldr_swapAdj_perm _ items

theorem move_selected_up_perm (items sel : List Nat) :
    List.Perm (move_selected_up items sel) items := by
  by_cases h1 : sel = []
  · simp [move_selected_up, h1]
  · by_cases h2 : 0 ∈ selPositions items sel
    · simp [move_selected_up, h1, h2]
    · simpa [move_selected_up, h1, h2] using foldl_swapAdj_pred_perm _ items

theorem move_selected_to_top_perm (items sel : List Nat) :
    List.Perm (move_selected_to_top items sel) items := by
  by_cases h1 : sel = []
  · simp [move_selected_to_top, h1]
  · simpa [move_selected_to_top, h1] using
      List.filter_append_perm (fun x => decide (x ∈ sel)) items

theorem move_selected_to_bottom_perm (items sel : List Nat) :
    List.Perm (move_selected_to_bottom items sel) items := by
  by_cases h1 : sel = []
  · simp [move_selected_to_bottom, h1]
  · simpa [move_selected_to_bottom, h1] using
      List.Perm.trans List.perm_append_comm
        (List.filter_append_perm (fun x => decide (x ∈ sel)) items)

theorem drag_step_perm (items sel : List Nat) (s t : Nat) :
    List.Perm (drag_step items sel s t) items := by
  by_cases h0 : selPositions items sel = []
  · by_cases h1 : t = s
    · simp [drag_step, h0, h1]
    · by_cases h2 : s < items.length
      · simp only [drag_step, h0, if_pos, if_neg h1, dif_pos h2, if_true]
        refine (List.perm_insertIdx _ _ (Nat.min_le_right _ _)).trans ?_
        refine List.Perm.symm ?_
        refine (List.perm_cons_erase (l := items) (a := items.get ⟨s, h2⟩)
          (by simp [List.get_eq_getElem, List.getElem_mem])).trans ?_
        refine List.Perm.cons _ ?_
        exact List.erase_getElem (by simpa using h2)
      · simp [drag_step, h0, h1, h2]
  · by_cases h3 : (selPositions items sel).headD 0 ≤ t ∧
        t ≤ (selPositions items sel).getLastD 0
    · simp only [drag_step, if_neg h0]
      rw [if_pos h3]
    · simp only [drag_step, if_neg h0, if_neg h3]
      refine List.Perm.trans ?_ (List.filter_append_perm (fun x => decide (x ∈ sel)) items)
      have h : ∀ (A B D : List Nat), List.Perm (A ++ B ++ D) (B ++ (A ++ D)) := by
        intro A B D
        have h1 : List.Perm (A ++ B ++ D) ((B ++ A) ++ D) :=
          List.Perm.append_right D List.perm_append_comm
        have h2 : (B ++ A) ++ D = B ++ (A ++ D) := List.append_assoc B A D
        exact h2 ▸ h1
      exact (h _ _ _).trans (by rw [List.take_append_drop])

/-! ### Pointwise effect of an adjacent swap -/

theorem swapAdj_length {α : Type} (l : List α) (i : Nat) :
    (swapAdj l i).length = l.length :=
  (swapAdj_perm l i).length_eq

theorem getElem?_swapAdj_of_lt {α : Type} (l : List α) (i j : Nat) (h : j < i) :
    (swapAdj l i)[j]? = l[j]? := by
  induction l generalizing i j with
  | nil => simp [swapAdj]
  | cons a t ih =>
    cases i with
    | zero => omega
    | succ n =>
      simp only [swapAdj]
      cases j with
      | zero => simp
      | succ m =>
        simp only [List.getElem?_cons_succ]
        exact ih n m (by omega)

theorem getElem?_swapAdj_self {α : Type} (l : List α) (i : Nat) (h : i + 1 < l.length) :
    (swapAdj l i)[i]? = l[i + 1]? := by
  induction l generalizing i with
  | nil => simp at h
  | cons a t ih =>
    cases i with
    | zero =>
      cases t with
      | nil => simp at h
      | cons b t' => simp [swapAdj]
    | succ n =>
      simp only [swapAdj, List.getElem?_cons_succ]
      exact ih n (by simpa using h)

theorem getElem?_swapAdj_succ {α : Type} (l : List α) (i : Nat) (h : i + 1 < l.length) :
    (swapAdj l i)[i + 1]? = l[i]? := by
  induction l generalizing i with
  | nil => simp at h
  | cons a t ih =>
    cases i with
    | zero =>
      cases t with
      | nil => simp at h
      | cons b t' => simp [swapAdj]
    | succ n =>
      simp only [swapAdj, List.getElem?_cons_succ]
      exact ih n (by simpa using h)

theorem getElem?_swapAdj_of_gt {α : Type} (l : List α) (i j : Nat) (h : i + 1 < j) :
    (swapAdj l i)[j]? = l[j]? := by
  induction l generalizing i j with
  | nil => simp [swapAdj]
  | cons a t ih =>
    cases i with
    | zero =>
      cases t with
      | nil => simp [swapAdj]
      | cons b t' =>
        match j, h with
        | m + 2, _ => simp [swapAdj]
    | succ n =>
      simp only [swapAdj]
      cases j with
      | zero => simp
      | succ m =>
        simp only [List.getElem?_cons_succ]
        exact ih n m (by omega)

/-- Two strictly sorted lists of naturals with the same members are equal. -/
theorem eq_of_pairwise_lt_of_mem_iff :
    ∀ {l₁ l₂ : List Nat}, l₁.Pairwise (· < ·) → l₂.Pairwise (· < ·) →
      (∀ x, x ∈ l₁ ↔ x ∈ l₂) → l₁ = l₂ := by
  intro l₁
  induction l₁ with
  | nil =>
    intro l₂ _ _ hmem
    cases l₂ with
    | nil => rfl
    | cons b t₂ => exact absurd ((hmem b).2 (List.mem_cons_self b t₂)) (by simp)
  | cons a t ih =>
    intro l₂ h₁ h₂ hmem
    cases l₂ with
    | nil => exact absurd ((hmem a).1 (List.mem_cons_self a t)) (by simp)
    | cons b t₂ =>
      have hab : a = b := by
        rcases List.mem_cons.1 ((hmem a).1 (List.mem_cons_self a t)) with h | h
        · exact h
        · rcases List.mem_cons.1 ((hmem b).2 (List.mem_cons_self b t₂)) with h5 | h5
          · exact h5.symm
          · have := (List.pairwise_cons.1 h₁).1 b h5
            have := (List.pairwise_cons.1 h₂).1 a h
            omega
      subst hab
      have htails : ∀ x, x ∈ t ↔ x ∈ t₂ := by
        intro x
        constructor
        · intro hx
          have hax := (List.pairwise_cons.1 h₁).1 x hx
          rcases List.mem_cons.1 ((hmem x).1 (List.mem_cons_of_mem a hx)) with h | h
          · omega
          · exact h
        · intro hx
          have hax := (List.pairwise_cons.1 h₂).1 x hx
          rcases List.mem_cons.1 ((hmem x).2 (List.mem_cons_of_mem a hx)) with h | h
          · omega
          · exact h
      rw [ih (List.pairwise_cons.1 h₁).2 (List.pairwise_cons.1 h₂).2 htails]

/-! ### Basic facts about `selPositions` -/

theorem mem_selPositions_iff (items sel : List Nat) (j : Nat) :
    j ∈ selPositions items sel ↔ j < items.length ∧ items.getD j 0 ∈ sel := by
  simp [selPositions, List.mem_filter, List.mem_range, and_comm]

theorem selPositions_pairwise (items sel : List Nat) :
    (selPositions items sel).Pairwise (· < ·) :=
  (List.pairwise_lt_range items.length).filter _

theorem selPositions_lt_length (items sel : List Nat) :
    ∀ p ∈ selPositions items sel, p < items.length := by
  intro p hp
  exact ((mem_selPositions_iff items sel p).1 hp).1

/-! ### The down-move shifts each selected position exactly one slot later -/

/-- Pointwise description of the descending swap pass of `move_selected_down`.
`ds` is a strictly ascending list of display positions, none on the bottom
boundary.  After the pass: the element of each `p ∈ ds` sits at `p + 1`; every
slot `j` not of the form `p + 1` holds the element of some original position
`m ∉ ds` with `m ≥ j` and everything in `[j, m)` belonging to `ds`; slots
below all of `ds` are untouched. -/
theorem foldr_swapAdj_down_spec {α : Type} (ds : List Nat) (l : List α)
    (hsort : ds.Pairwise (· < ·)) (hbound : ∀ p ∈ ds, p + 1 < l.length) :
    (∀ p ∈ ds, (ds.foldr (fun x y => swapAdj y x) l)[p + 1]? = l[p]?) ∧
    (∀ j, j ∉ ds.map (· + 1) →
      ∃ m, m ∉ ds ∧ j ≤ m ∧ (∀ k, j ≤ k → k < m → k ∈ ds) ∧
        (ds.foldr (fun x y => swapAdj y x) l)[j]? = l[m]?) ∧
    (∀ j, (∀ q ∈ ds, j < q) → (ds.foldr (fun x y => swapAdj y x) l)[j]? = l[j]?) := by
  induction ds generalizing l with
  | nil =>
    refine ⟨by simp, ?_, by simp⟩
    intro j _
    exact ⟨j, by simp, Nat.le_refl j, fun k h1 h2 => absurd h1 (by omega), rfl⟩
  | cons p rest ih =>
    obtain ⟨hpr, hrest⟩ := List.pairwise_cons.1 hsort
    have hb2 : ∀ q ∈ rest, q + 1 < l.length :=
      fun q hq => hbound q (List.mem_cons_of_mem p hq)
    obtain ⟨ha, hb, hc⟩ := ih l hrest hb2
    set r : List α := rest.foldr (fun x y => swapAdj y x) l with hr
    have hlen : r.length = l.length := (foldr_swapAdj_perm rest l).length_eq
    have hfold : (p :: rest).foldr (fun x y => swapAdj y x) l = swapAdj r p := rfl
    have hp1 : p + 1 < r.length := by
      rw [hlen]; exact hbound p (List.mem_cons_self p rest)
    refine ⟨?_, ?_, ?_⟩
    · -- each position of `p :: rest` moves one later
      intro q hq
      rw [hfold]
      rcases List.mem_cons.1 hq with rfl | hq
      · rw [getElem?_swapAdj_succ r q hp1]
        exact hc q hpr
      · have hpq : p < q := hpr q hq
        rw [getElem?_swapAdj_of_gt r p (q + 1) (by omega)]
        exact ha q hq
    · -- other slots take the first free element at or after them
      intro j hj
      have hj1 : j ≠ p + 1 := by
        intro h; exact hj (h ▸ List.mem_map_of_mem (· + 1) (List.mem_cons_self p rest))
      have hj2 : j ∉ rest.map (· + 1) := by
        intro h
        obtain ⟨q, hq, rfl⟩ := List.mem_map.1 h
        exact hj (List.mem_map_of_mem (· + 1) (List.mem_cons_of_mem p hq))
      rw [hfold]
      rcases Nat.lt_trichotomy j p with hjp | heq | hjp
      · -- below `p`: untouched
        refine ⟨j, ?_, Nat.le_refl j, fun k h1 h2 => absurd h1 (by omega), ?_⟩
        · intro h
          rcases List.mem_cons.1 h with rfl | h
          · omega
          · exact absurd (hpr j h) (by omega)
        · rw [getElem?_swapAdj_of_lt r p j hjp]
          exact hc j (fun q hq => lt_trans hjp (hpr q hq))
      · -- at `p`: receives the element that was at `p + 1` before the pass
        subst heq
        have hp1m : j + 1 ∉ rest.map (· + 1) := by
          intro h
          obtain ⟨q, hq, hqe⟩ := List.mem_map.1 h
          have : q = j := by omega
          exact absurd (hpr q hq) (by omega)
        obtain ⟨m, hm1, hm2, hm3, hm4⟩ := hb (j + 1) hp1m
        refine ⟨m, ?_, by omega, ?_, ?_⟩
        · intro h
          rcases List.mem_cons.1 h with rfl | h
          · omega
          · exact hm1 h
        · intro k hk1 hk2
          rcases Nat.eq_or_lt_of_le hk1 with heq2 | hk
          · exact heq2 ▸ List.mem_cons_self j rest
          · exact List.mem_cons_of_mem j (hm3 k (by omega) hk2)
        · rw [getElem?_swapAdj_self r j hp1]
          exact hm4
      · -- above `p + 1`: the tail pass already decided this slot
        have hj3 : p + 1 < j := by omega
        obtain ⟨m, hm1, hm2, hm3, hm4⟩ := hb j hj2
        refine ⟨m, ?_, hm2, ?_, ?_⟩
        · intro h
          rcases List.mem_cons.1 h with rfl | h
          · omega
          · exact hm1 h
        · intro k hk1 hk2
          exact List.mem_cons_of_mem p (hm3 k hk1 hk2)
        · rw [getElem?_swapAdj_of_gt r p j hj3]
          exact hm4
    · -- slots below all of `p :: rest` are untouched
      intro j hjq
      have hjp : j < p := hjq p (List.mem_cons_self p rest)
      rw [hfold, getElem?_swapAdj_of_lt r p j hjp]
      exact hc j (fun q hq => hjq q (List.mem_cons_of_mem p hq))

theorem selPositions_nil (items : List Nat) : selPositions items [] = [] := by
  simp [selPositions]

/-- If the selection is nonempty and the bottom slot is unselected,
`move_selected_down` reduces to the descending swap pass. -/
theorem move_selected_down_eq_foldr (items sel : List Nat)
    (hne : selPositions items sel ≠ [])
    (hlast : items.length - 1 ∉ selPositions items sel) :
    move_selected_down items sel
      = (selPositions items sel).foldr (fun x y => swapAdj y x) items := by
  have hsel : sel ≠ [] := by
    intro h
    exact hne (h ▸ selPositions_nil items)
  simp [move_selected_down, hsel, hlast, List.foldl_reverse]

/-- After a legal down-move, the selected display positions are exactly the
previous ones shifted one later, and each selected page's index moved with
its position. -/
theorem selPositions_move_selected_down (items sel : List Nat)
    (hne : selPositions items sel ≠ [])
    (hlast : items.length - 1 ∉ selPositions items sel) :
    selPositions (move_selected_down items sel) sel
      = (selPositions items sel).map (· + 1) ∧
    ∀ p ∈ selPositions items sel,
      (move_selected_down items sel)[p + 1]? = items[p]? := by
  set ds := selPositions items sel with hds
  have hn0 : 0 < items.length := by
    rcases List.exists_mem_of_ne_nil ds hne with ⟨p, hp⟩
    exact Nat.lt_of_le_of_lt (Nat.zero_le p) (selPositions_lt_length items sel p hp)
  have hbound : ∀ p ∈ ds, p + 1 < items.length := by
    intro p hp
    have h1 : p < items.length := selPositions_lt_length items sel p hp
    have h2 : p ≠ items.length - 1 := fun h => hlast (h ▸ hp)
    omega
  obtain ⟨ha, hb, _⟩ :=
    foldr_swapAdj_down_spec ds items (selPositions_pairwise items sel) hbound
  have hred := move_selected_down_eq_foldr items sel hne hlast
  have hlen : (move_selected_down items sel).length = items.length :=
    (move_selected_down_perm items sel).length_eq
  have hpoint : ∀ p ∈ ds, (move_selected_down items sel)[p + 1]? = items[p]? := by
    intro p hp
    rw [hred]
    exact ha p hp
  refine ⟨?_, hpoint⟩
  refine eq_of_pairwise_lt_of_mem_iff (selPositions_pairwise _ sel)
    (List.Pairwise.map (· + 1) (fun a b h => by show a + 1 < b + 1; omega)
      (selPositions_pairwise items sel)) ?_
  intro x
  constructor
  · intro hx
    obtain ⟨hx1, hx2⟩ := (mem_selPositions_iff _ sel x).1 hx
    by_contra hmap
    obtain ⟨m, hm1, hm2, hm3, hm4⟩ := hb x hmap
    rw [← hred] at hm4
    have hx3 : (move_selected_down items sel)[x]?
        = some ((move_selected_down items sel).getD x 0) := by
      rw [List.getD_eq_getElem?_getD, List.getElem?_eq_getElem (by omega)]
      simp
    rw [hx3] at hm4
    have hm5 : m < items.length := by
      by_contra hm5
      rw [List.getElem?_eq_none (by omega)] at hm4
      exact Option.noConfusion hm4
    have hm6 : items.getD m 0 ∈ sel := by
      rw [List.getD_eq_getElem?_getD, ← hm4]
      simpa using hx2
    exact hm1 ((mem_selPositions_iff items sel m).2 ⟨hm5, hm6⟩)
  · intro hx
    obtain ⟨p, hp, rfl⟩ := List.mem_map.1 hx
    have h1 := hpoint p hp
    obtain ⟨hp1, hp2⟩ := (mem_selPositions_iff items sel p).1 hp
    refine (mem_selPositions_iff _ sel (p + 1)).2 ⟨by rw [hlen]; exact hbound p hp, ?_⟩
    rw [List.getD_eq_getElem?_getD, h1, ← List.getD_eq_getElem?_getD]
    exact hp2

/-! ### The up-move shifts each selected position exactly one slot earlier -/

/-- Pointwise description of the ascending swap pass of `move_selected_up`.
`ds` is a strictly ascending list of display positions, none on the top
boundary.  After the pass: the element of each `p ∈ ds` sits at `p - 1`; every
slot `j` not of the form `p - 1` holds the element of some original position
`m ∉ ds` with `m ≤ j` and everything in `(m, j]` belonging to `ds`; slots
below all of `ds - 1` are untouched. -/
theorem foldl_swapAdj_up_spec {α : Type} (ds : List Nat) (l : List α)
    (hsort : ds.Pairwise (· < ·)) (hbound : ∀ p ∈ ds, 0 < p ∧ p < l.length) :
    (∀ p ∈ ds, (ds.foldl (fun l i => swapAdj l (i - 1)) l)[p - 1]? = l[p]?) ∧
    (∀ j, j ∉ ds.map (· - 1) →
      ∃ m, m ∉ ds ∧ m ≤ j ∧ (∀ k, m < k → k ≤ j → k ∈ ds) ∧
        (ds.foldl (fun l i => swapAdj l (i - 1)) l)[j]? = l[m]?) ∧
    (∀ j, (∀ q ∈ ds, j < q - 1) →
      (ds.foldl (fun l i => swapAdj l (i - 1)) l)[j]? = l[j]?) := by
  induction ds generalizing l with
  | nil =>
    refine ⟨by simp, ?_, by simp⟩
    intro j _
    exact ⟨j, by simp, Nat.le_refl j, fun k h1 h2 => absurd h1 (by omega), rfl⟩
  | cons p rest ih =>
    obtain ⟨hpr, hrest⟩ := List.pairwise_cons.1 hsort
    obtain ⟨hp0, hpl⟩ := hbound p (List.mem_cons_self p rest)
    set l2 : List α := swapAdj l (p - 1) with hl2
    have hlen2 : l2.length = l.length := swapAdj_length l (p - 1)
    have hb2 : ∀ q ∈ rest, 0 < q ∧ q < l2.length := by
      intro q hq
      have := hbound q (List.mem_cons_of_mem p hq)
      omega
    obtain ⟨ha, hb, hd⟩ := ih l2 hrest hb2
    have hfold : (p :: rest).foldl (fun l i => swapAdj l (i - 1)) l
        = rest.foldl (fun l i => swapAdj l (i - 1)) l2 := rfl
    have hps : p - 1 + 1 = p := by omega
    have hpb : p - 1 + 1 < l.length := by omega
    -- how the first swap rearranged `l`
    have hl2_pm1 : l2[p - 1]? = l[p]? := by
      rw [hl2, getElem?_swapAdj_self l (p - 1) hpb, hps]
    have hl2_p : l2[p]? = l[p - 1]? := by
      have h := getElem?_swapAdj_succ l (p - 1) hpb
      rw [hps] at h
      exact h
    have hl2_lt : ∀ j, j < p - 1 → l2[j]? = l[j]? :=
      fun j hj => getElem?_swapAdj_of_lt l (p - 1) j hj
    have hl2_gt : ∀ j, p < j → l2[j]? = l[j]? := by
      intro j hj
      exact getElem?_swapAdj_of_gt l (p - 1) j (by omega)
    refine ⟨?_, ?_, ?_⟩
    · intro q hq
      rw [hfold]
      rcases List.mem_cons.1 hq with rfl | hq
      · rw [hd (q - 1) (fun q2 hq2 => by have := hpr q2 hq2; have := (hb2 q2 hq2).1; omega)]
        exact hl2_pm1
      · rw [ha q hq]
        exact hl2_gt q (hpr q hq)
    · intro j hj
      have hj1 : j ≠ p - 1 := by
        intro h
        exact hj (h ▸ List.mem_map_of_mem (· - 1) (List.mem_cons_self p rest))
      have hj2 : j ∉ rest.map (· - 1) := by
        intro h
        obtain ⟨q, hq, rfl⟩ := List.mem_map.1 h
        exact hj (List.mem_map_of_mem (· - 1) (List.mem_cons_of_mem p hq))
      rw [hfold]
      rcases Nat.lt_or_ge j p with hjp | hjp
      · -- `j < p` and `j ≠ p - 1`, so `j < p - 1`: untouched
        have hjp2 : j < p - 1 := by omega
        refine ⟨j, ?_, Nat.le_refl j, fun k h1 h2 => absurd h1 (by omega), ?_⟩
        · intro h
          rcases List.mem_cons.1 h with rfl | h
          · omega
          · exact absurd (hpr j h) (by omega)
        · rw [hd j (fun q2 hq2 => by have := hpr q2 hq2; omega)]
          exact hl2_lt j hjp2
      · -- `j ≥ p`: decided by the tail pass over `l2`
        obtain ⟨m, hm1, hm2, hm3, hm4⟩ := hb j hj2
        rcases Nat.lt_trichotomy m p with hmp | heq | hmp
        · -- the tail pass reached down to a slot `m < p`; `m = p - 1` is
          -- impossible, and `m < p - 1` means the interval misses `p`
          have hmne : m ≠ p - 1 := by
            intro h
            have hpj : p ∈ rest := hm3 p (by omega) hjp
            exact absurd (hpr p hpj) (by omega)
          have hm5 : m < p - 1 := by omega
          exact absurd (hpr p (hm3 p (by omega) hjp)) (by omega)
        · -- the tail pass stopped at `p`, whose element came from `p - 1`
          subst heq
          refine ⟨m - 1, ?_, by omega, ?_, ?_⟩
          · intro h
            rcases List.mem_cons.1 h with h | h
            · omega
            · exact absurd (hpr (m - 1) h) (by omega)
          · intro k hk1 hk2
            rcases Nat.lt_or_ge m k with hk3 | hk3
            · exact List.mem_cons_of_mem m (hm3 k (by omega) hk2)
            · have hkm : k = m := by omega
              exact hkm ▸ List.mem_cons_self m rest
          · rw [hm4]
            exact hl2_p
        · -- the tail pass stopped above `p`: `l2` agrees with `l` there
          refine ⟨m, ?_, hm2, ?_, ?_⟩
          · intro h
            rcases List.mem_cons.1 h with rfl | h
            · omega
            · exact hm1 h
          · intro k hk1 hk2
            exact List.mem_cons_of_mem p (hm3 k hk1 hk2)
          · rw [hm4]
            exact hl2_gt m hmp
    · intro j hjq
      have hjp : j < p - 1 := hjq p (List.mem_cons_self p rest)
      rw [hfold, hd j (fun q2 hq2 => hjq q2 (List.mem_cons_of_mem p hq2))]
      exact hl2_lt j hjp

/-- If the selection is nonempty and the top slot is unselected,
`move_selected_up` reduces to the ascending swap pass. -/
theorem move_selected_up_eq_foldl (items sel : List Nat)
    (hne : selPositions items sel ≠ [])
    (hfirst : 0 ∉ selPositions items sel) :
    move_selected_up items sel
      = (selPositions items sel).foldl (fun l i => swapAdj l (i - 1)) items := by
  have hsel : sel ≠ [] := by
    intro h
    exact hne (h ▸ selPositions_nil items)
  simp [move_selected_up, hsel, hfirst]

/-- After a legal up-move, the selected display positions are exactly the
previous ones shifted one earlier, and each selected page's index moved with
its position. -/
theorem selPositions_move_selected_up (items sel : List Nat)
    (hne : selPositions items sel ≠ [])
    (hfirst : 0 ∉ selPositions items sel) :
    selPositions (move_selected_up items sel) sel
      = (selPositions items sel).map (· - 1) ∧
    ∀ p ∈ selPositions items sel,
      (move_selected_up items sel)[p - 1]? = items[p]? := by
  set ds := selPositions items sel with hds
  have hbound : ∀ p ∈ ds, 0 < p ∧ p < items.length := by
    intro p hp
    have h1 : p < items.length := selPositions_lt_length items sel p hp
    have h2 : p ≠ 0 := fun h => hfirst (h ▸ hp)
    omega
  obtain ⟨ha, hb, _⟩ :=
    foldl_swapAdj_up_spec ds items (selPositions_pairwise items sel) hbound
  have hred := move_selected_up_eq_foldl items sel hne hfirst
  have hlen : (move_selected_up items sel).length = items.length :=
    (move_selected_up_perm items sel).length_eq
  have hpoint : ∀ p ∈ ds, (move_selected_up items sel)[p - 1]? = items[p]? := by
    intro p hp
    rw [hred]
    exact ha p hp
  refine ⟨?_, hpoint⟩
  refine eq_of_pairwise_lt_of_mem_iff (selPositions_pairwise _ sel)
    (List.pairwise_map.2 ?_) ?_
  · refine List.Pairwise.imp_of_mem ?_ (selPositions_pairwise items sel)
    intro a b ha2 hb2 hab
    have h0a := (hbound a ha2).1
    show a - 1 < b - 1
    omega
  intro x
  constructor
  · intro hx
    obtain ⟨hx1, hx2⟩ := (mem_selPositions_iff _ sel x).1 hx
    by_contra hmap
    obtain ⟨m, hm1, hm2, hm3, hm4⟩ := hb x hmap
    rw [← hred] at hm4
    have hx3 : (move_selected_up items sel)[x]?
        = some ((move_selected_up items sel).getD x 0) := by
      rw [List.getD_eq_getElem?_getD, List.getElem?_eq_getElem (by omega)]
      simp
    rw [hx3] at hm4
    have hm5 : m < items.length := by
      by_contra hm5
      rw [List.getElem?_eq_none (by omega)] at hm4
      exact Option.noConfusion hm4
    have hm6 : items.getD m 0 ∈ sel := by
      rw [List.getD_eq_getElem?_getD, ← hm4]
      simpa using hx2
    exact hm1 ((mem_selPositions_iff items sel m).2 ⟨hm5, hm6⟩)
  · intro hx
    obtain ⟨p, hp, rfl⟩ := List.mem_map.1 hx
    have h1 := hpoint p hp
    obtain ⟨hp1, hp2⟩ := (mem_selPositions_iff items sel p).1 hp
    refine (mem_selPositions_iff _ sel (p - 1)).2
      ⟨by rw [hlen]; have := (hbound p hp).2; omega, ?_⟩
    rw [List.getD_eq_getElem?_getD, h1, ← List.getD_eq_getElem?_getD]
    exact hp2

/-! ### Claims C1-C3 -/

theorem applyMove_perm (items : List Nat) (op : MoveOp) :
    List.Perm (applyMove items op) items := by
  cases op with
  | up sel => exact move_selected_up_perm items sel
  | down sel => exact move_selected_down_perm items sel
  | toTop sel => exact move_selected_to_top_perm items sel
  | toBottom sel => exact move_selected_to_bottom_perm items sel
  | drag sel s t => exact drag_step_perm items sel s t

theorem applyMoves_perm (items : List Nat) (ops : List MoveOp) :
    List.Perm (applyMoves items ops) items := by
  induction ops generalizing items with
  | nil => exact List.Perm.refl items
  | cons op ops ih => exact (ih (applyMove items op)).trans (applyMove_perm items op)

/-- C1, counterexample to the claim as stated: from display order
`[0, 1, 2, 3]` with pages 0 and 2 selected, one `move_selected_down` yields
`[1, 0, 3, 2]`, whose selected display positions are `[1, 3]` — NOT one
contiguous block.  The code moves each selected page by an adjacent swap; it
never gathers a scattered selection. -/
theorem claim_C1_counterexample :
    move_selected_down [0, 1, 2, 3] [0, 2] = [1, 0, 3, 2] ∧
    selPositions (move_selected_down [0, 1, 2, 3] [0, 2]) [0, 2] = [1, 3] ∧
    contiguous (selPositions (move_selected_down [0, 1, 2, 3] [0, 2]) [0, 2])
      = false := by
  decide

/-- C1 (amended): a single `move_selected_down` (resp. `move_selected_up`)
on a non-boundary selection shifts each selected page exactly one display
slot later (resp. earlier), carrying its page index along, so relative order
and the selection's gap pattern are preserved; non-adjacent selections remain
non-adjacent instead of becoming one contiguous block. -/
theorem claim_C1_move_shifts_selection (items sel : List Nat) :
    (selPositions items sel ≠ [] → items.length - 1 ∉ selPositions items sel →
      selPositions (move_selected_down items sel) sel
        = (selPositions items sel).map (· + 1) ∧
      ∀ p ∈ selPositions items sel,
        (move_selected_down items sel)[p + 1]? = items[p]?) ∧
    (selPositions items sel ≠ [] → 0 ∉ selPositions items sel →
      selPositions (move_selected_up items sel) sel
        = (selPositions items sel).map (· - 1) ∧
      ∀ p ∈ selPositions items sel,
        (move_selected_up items sel)[p - 1]? = items[p]?) :=
  ⟨fun h1 h2 => selPositions_move_selected_down items sel h1 h2,
   fun h1 h2 => selPositions_move_selected_up items sel h1 h2⟩

/-- Witness for the amended C1 at concrete inputs. -/
theorem claim_C1_move_shifts_selection_witness :
    selPositions (move_selected_down [0, 1, 2, 3] [0, 2]) [0, 2]
      = (selPositions [0, 1, 2, 3] [0, 2]).map (· + 1) ∧
    selPositions (move_selected_up [1, 0, 3, 2] [0, 2]) [0, 2]
      = (selPositions [1, 0, 3, 2] [0, 2]).map (· - 1) :=
  ⟨((claim_C1_move_shifts_selection [0, 1, 2, 3] [0, 2]).1
      (by decide) (by decide)).1,
   ((claim_C1_move_shifts_selection [1, 0, 3, 2] [0, 2]).2
      (by decide) (by decide)).1⟩

/-- C2: from display order `[0, 1, 2, 3]` with pages `{0, 2}` selected, one
`move_selected_down` produces exactly `[1, 0, 3, 2]`: each selected page one
slot later, 0 still before 2, the unselected pages 1 and 3 in their relative
order. -/
theorem claim_C2_move_down_fixture :
    move_selected_down [0, 1, 2, 3] [0, 2] = [1, 0, 3, 2] := by decide

/-- C3: any sequence of keyboard moves and drag steps keeps the display
order a permutation of the initial one — same length, no page index lost or
duplicated. -/
theorem claim_C3_reorder_bijection (items : List Nat) (ops : List MoveOp) :
    List.Perm (get_page_order (applyMoves items ops)) (get_page_order items) ∧
    (get_page_order (applyMoves items ops)).length
      = (get_page_order items).length ∧
    (∀ x, x ∈ get_page_order (applyMoves items ops) ↔ x ∈ get_page_order items) :=
  ⟨applyMoves_perm items ops, (applyMoves_perm items ops).length_eq,
   fun _ => (applyMoves_perm items ops).mem_iff⟩

/-! ### Range parser: collected indices are valid, deduplicated, sorted -/

theorem mem_foldl_insertIfAbsent (idxs : List Nat) (acc : List Nat) (x : Nat) :
    x ∈ idxs.foldl (fun a i => if i ∈ a then a else i :: a) acc ↔
      x ∈ acc ∨ x ∈ idxs := by
  induction idxs generalizing acc with
  | nil => simp
  | cons i rest ih =>
    simp only [List.foldl_cons, ih, List.mem_cons]
    by_cases h : i ∈ acc
    · rw [if_pos h]
      constructor
      · rintro (hx | hx)
        · exact Or.inl hx
        · exact Or.inr (Or.inr hx)
      · rintro (hx | hx | hx)
        · exact Or.inl hx
        · exact Or.inl (hx ▸ h)
        · exact Or.inr hx
    · rw [if_neg h]
      simp only [List.mem_cons]
      tauto

theorem nodup_foldl_insertIfAbsent (idxs : List Nat) (acc : List Nat)
    (h : acc.Nodup) :
    (idxs.foldl (fun a i => if i ∈ a then a else i :: a) acc).Nodup := by
  induction idxs generalizing acc with
  | nil => exact h
  | cons i rest ih =>
    simp only [List.foldl_cons]
    apply ih
    by_cases hi : i ∈ acc
    · rwa [if_pos hi]
    · rw [if_neg hi]
      exact List.Nodup.cons hi h

theorem parseToken_ok_bound (part : List Char) (totalPages : Int)
    (idxs : List Nat) (h : parseToken part totalPages = .ok idxs) :
    ∀ i ∈ idxs, (i : Int) < totalPages := by
  unfold parseToken at h
  by_cases hc : part.contains '-'
  · rw [if_pos hc] at h
    cases hs : pyInt? (trimChars (part.takeWhile (fun c => c != '-'))) with
    | none => rw [hs] at h; cases h
    | some start =>
      cases he : pyInt? (trimChars ((part.dropWhile (fun c => c != '-')).drop 1)) with
      | none => rw [hs, he] at h; cases h
      | some stop =>
        rw [hs, he] at h
        dsimp only at h
        by_cases h1 : start < 1 ∨ stop < 1
        · rw [if_pos h1] at h; cases h
        · rw [if_neg h1] at h
          by_cases h2 : start > stop
          · rw [if_pos h2] at h; cases h
          · rw [if_neg h2] at h
            by_cases h3 : stop > totalPages
            · rw [if_pos h3] at h; cases h
            · rw [if_neg h3] at h
              injection h with h
              subst h
              intro i hi
              obtain ⟨k, hk, rfl⟩ := List.mem_map.1 hi
              have hk2 := List.mem_range.1 hk
              omega
  · rw [if_neg hc] at h
    cases hn : pyInt? part with
    | none => rw [hn] at h; cases h
    | some n =>
      rw [hn] at h
      dsimp only at h
      by_cases h1 : n < 1
      · rw [if_pos h1] at h; cases h
      · rw [if_neg h1] at h
        by_cases h2 : n > totalPages
        · rw [if_pos h2] at h; cases h
        · rw [if_neg h2] at h
          injection h with h
          subst h
          intro i hi
          rw [List.mem_singleton] at hi
          subst hi
          omega

theorem collectTokens_ok_props (totalPages : Int) :
    ∀ (parts : List (List Char)) (acc : List Nat),
      acc.Nodup → (∀ i ∈ acc, (i : Int) < totalPages) →
      ∀ s, collectTokens totalPages parts acc = .ok s →
        s.Nodup ∧ ∀ i ∈ s, (i : Int) < totalPages := by
  intro parts
  induction parts with
  | nil =>
    intro acc h1 h2 s hs
    injection hs with hs
    subst hs
    exact ⟨h1, h2⟩
  | cons p rest ih =>
    intro acc h1 h2 s hs
    unfold collectTokens at hs
    cases hp : parseToken p totalPages with
    | error e => rw [hp] at hs; cases hs
    | ok idxs =>
      rw [hp] at hs
      refine ih _ ?_ ?_ s hs
      · exact nodup_foldl_insertIfAbsent idxs acc h1
      · intro i hi
        rcases (mem_foldl_insertIfAbsent idxs acc i).1 hi with hi | hi
        · exact h2 i hi
        · exact parseToken_ok_bound p totalPages idxs hp i hi

theorem pairwise_lt_of_le_nodup {α : Type} [LinearOrder α] {l : List α}
    (h1 : l.Pairwise (· ≤ ·)) (h2 : l.Nodup) : l.Pairwise (· < ·) :=
  (h1.and h2).imp (fun h => lt_of_le_of_ne h.1 h.2)

theorem parse_page_ranges_ok_props (text : String) (totalPages : Int)
    (r : List Nat) (h : parse_page_ranges text totalPages = .ok r) :
    r.Pairwise (· < ·) ∧ ∀ i ∈ r, (i : Int) < totalPages := by
  unfold parse_page_ranges at h
  by_cases h0 : totalPages ≤ 0
  · rw [if_pos h0] at h
    injection h with h
    subst h
    exact ⟨List.Pairwise.nil, by simp⟩
  · rw [if_neg h0] at h
    by_cases h1 : trimChars text.toList = []
    · rw [if_pos h1] at h
      injection h with h
      subst h
      exact ⟨List.Pairwise.nil, by simp⟩
    · rw [if_neg h1] at h
      dsimp only at h
      cases hcol : collectTokens totalPages
          (((splitOnChar ',' (trimChars text.toList)).map trimChars).filter
            (fun p => p != [])) [] with
      | error e => rw [hcol] at h; cases h
      | ok s =>
        rw [hcol] at h
        injection h with h
        subst h
        obtain ⟨hnd, hbd⟩ := collectTokens_ok_props totalPages _ []
          List.nodup_nil (by simp) s hcol
        constructor
        · refine pairwise_lt_of_le_nodup (List.sorted_insertionSort _ s) ?_
          exact (List.perm_insertionSort _ s).nodup_iff.2 hnd
        · intro i hi
          exact hbd i ((List.perm_insertionSort _ s).mem_iff.1 hi)

/-! ### Claims C7 and C10 -/

/-- C7: the parser turns valid one-based tokens into zero-based indices,
deduplicates, and returns them sorted strictly ascending (shown by the fixture
values and, generally, by strict sortedness and in-range indices of every
successful parse).  The spec's `OutOfRange` is the code's "exceeds total
pages" error, its `InvalidOrder` the "start greater than end" error. -/
theorem claim_C7_range_parse :
    parse_page_ranges "1,3,5-7" 10 = .ok [0, 2, 4, 5, 6] ∧
    parse_page_ranges "" 10 = .ok [] ∧
    parse_page_ranges "11" 10 = .error .tooLarge ∧
    parse_page_ranges "5-3" 10 = .error .invalidOrder ∧
    ∀ (text : String) (totalPages : Int) (r : List Nat),
      parse_page_ranges text totalPages = .ok r →
      r.Pairwise (· < ·) ∧ ∀ i ∈ r, (i : Int) < totalPages :=
  ⟨by decide, by decide, by decide, by decide,
   fun text totalPages r h => parse_page_ranges_ok_props text totalPages r h⟩

/-- Witness for C7's general clause at the fixture input. -/
theorem claim_C7_range_parse_witness :
    List.Pairwise (· < ·) ([0, 2, 4, 5, 6] : List Nat) ∧ ((2 : Nat) : Int) < 10 :=
  have h := claim_C7_range_parse.2.2.2.2 "1,3,5-7" 10 [0, 2, 4, 5, 6] (by decide)
  ⟨h.1, h.2 2 (by decide)⟩

/-- C10: with `totalPages ≤ 0` the parser returns the empty index list for
every input string — the zero-page guard short-circuits before any token is
examined, so even malformed tokens raise nothing. -/
theorem claim_C10_zero_page_guard (text : String) (totalPages : Int)
    (h : totalPages ≤ 0) :
    parse_page_ranges text totalPages = .ok [] := by
  unfold parse_page_ranges
  rw [if_pos h]

/-- Witness for C10 on a malformed token. -/
theorem claim_C10_zero_page_guard_witness :
    parse_page_ranges "abc" 0 = .ok [] :=
  claim_C10_zero_page_guard "abc" 0 (by norm_num)

/-! ### Claim C9 -/

/-- The merge loop fails on the first encrypted source, whatever pages were
already accumulated. -/
theorem mergeLoop_first_encrypted :
    ∀ (l : List MergeDoc) (acc : List Nat),
      (∃ d ∈ l, d.encrypted = true) →
      ∃ pre d post, l = pre ++ d :: post ∧ (∀ e ∈ pre, e.encrypted = false) ∧
        d.encrypted = true ∧ mergeLoop l acc = .error (.encryptedSource d.name) := by
  intro l
  induction l with
  | nil =>
    intro acc h
    simp at h
  | cons a rest ih =>
    intro acc h
    by_cases ha : a.encrypted
    · exact ⟨[], a, rest, rfl, by simp, ha, by simp [mergeLoop, ha]⟩
    · have h2 : ∃ d ∈ rest, d.encrypted = true := by
        obtain ⟨d, hd, he⟩ := h
        rcases List.mem_cons.1 hd with rfl | hd
        · exact absurd he (by simpa using ha)
        · exact ⟨d, hd, he⟩
      obtain ⟨pre, d, post, heq, hpre, hd, hrun⟩ := ih (acc ++ a.pages) h2
      refine ⟨a :: pre, d, post, by rw [List.cons_append, heq], ?_, hd, ?_⟩
      · intro e he
        rcases List.mem_cons.1 he with rfl | he
        · simpa using ha
        · exact hpre e he
      · have hstep : mergeLoop (a :: rest) acc = mergeLoop rest (acc ++ a.pages) := by
          simp [mergeLoop, ha]
        rw [hstep, hrun]

/-- C9: as soon as some input reports itself encrypted, `merge_pdfs` raises
`EncryptedSource` naming the first such file; since the output is written only
after the loop completes, no (partial) output file exists. -/
theorem claim_C9_merge_rejects_encrypted (inputs : List MergeDoc)
    (h : ∃ d ∈ inputs, d.encrypted = true) :
    ∃ pre d post, inputs = pre ++ d :: post ∧
      (∀ e ∈ pre, e.encrypted = false) ∧ d.encrypted = true ∧
      merge_pdfs inputs = .error (.encryptedSource d.name) := by
  have hne : inputs ≠ [] := by
    rintro rfl
    simp at h
  obtain ⟨pre, d, post, heq, hpre, hd, hrun⟩ := mergeLoop_first_encrypted inputs [] h
  refine ⟨pre, d, post, heq, hpre, hd, ?_⟩
  unfold merge_pdfs
  rw [if_neg hne]
  exact hrun

/-- Witness for C9: an encrypted first source is rejected by name. -/
theorem claim_C9_merge_rejects_encrypted_witness :
    merge_pdfs [⟨"a.pdf", true, [0]⟩, ⟨"b.pdf", false, [1, 2]⟩]
      = .error (.encryptedSource "a.pdf") := by
  obtain ⟨pre, d, post, heq, hpre, hd, hrun⟩ :=
    claim_C9_merge_rejects_encrypted
      [⟨"a.pdf", true, [0]⟩, ⟨"b.pdf", false, [1, 2]⟩]
      ⟨⟨"a.pdf", true, [0]⟩, by simp, rfl⟩
  match pre, heq with
  | [], heq =>
    rw [List.nil_append] at heq
    injection heq with h1 h2
    rw [hrun, ← h1]
  | p :: pre2, heq =>
    rw [List.cons_append] at heq
    injection heq with h1 h2
    have hp := hpre p (List.mem_cons_self p pre2)
    rw [← h1] at hp
    simp at hp

/-! ### Claim C8 -/

theorem mem_pages_to_keep_delete (totalPages : Nat) (targets : List Int)
    (x : Int) :
    x ∈ pages_to_keep "delete" totalPages targets ↔
      (0 ≤ x ∧ x < (totalPages : Int)) ∧ x ∉ targets := by
  unfold pages_to_keep
  rw [if_neg (by decide : ¬("delete" : String) = "keep")]
  simp only [List.mem_filter, List.mem_map, List.mem_range, Bool.not_eq_eq_eq_not,
    Bool.not_true, List.contains_eq_any_beq, List.any_eq_false, beq_iff_eq]
  constructor
  · rintro ⟨⟨i, hi, rfl⟩, hx⟩
    refine ⟨⟨Int.ofNat_nonneg i, by exact_mod_cast hi⟩, ?_⟩
    intro hmem
    exact hx _ hmem rfl
  · rintro ⟨⟨hx0, hxn⟩, hx⟩
    constructor
    · exact ⟨x.toNat, by omega, by omega⟩
    · intro y hy hxy
      exact hx (hxy ▸ hy)

theorem mem_pages_to_keep_keep (totalPages : Nat) (targets : List Int)
    (x : Int) :
    x ∈ pages_to_keep "keep" totalPages targets ↔ x ∈ targets := by
  unfold pages_to_keep
  rw [if_pos rfl]
  rw [(List.perm_insertionSort _ _).mem_iff]
  exact List.mem_dedup

theorem pages_to_keep_delete_pairwise (totalPages : Nat) (targets : List Int) :
    (pages_to_keep "delete" totalPages targets).Pairwise (· < ·) := by
  unfold pages_to_keep
  rw [if_neg (by decide : ¬("delete" : String) = "keep")]
  refine List.Pairwise.filter _ ?_
  refine List.Pairwise.map _ (fun a b h => ?_) (List.pairwise_lt_range totalPages)
  exact_mod_cast h

theorem pages_to_keep_keep_pairwise (totalPages : Nat) (targets : List Int) :
    (pages_to_keep "keep" totalPages targets).Pairwise (· < ·) := by
  unfold pages_to_keep
  rw [if_pos rfl]
  refine pairwise_lt_of_le_nodup (List.sorted_insertionSort _ _) ?_
  exact (List.perm_insertionSort _ _).nodup_iff.2 targets.nodup_dedup

/-- C8: for a document with at least one page and a nonempty proper target
set of valid indices, `split_pdf` succeeds in both modes; the kept page
lists of `delete` and `keep` mode are each strictly ascending, disjoint, and
together exactly the original page indices `0 .. totalPages-1`. -/
theorem claim_C8_split_partition (totalPages : Nat) (targets : List Int)
    (hn : 1 ≤ totalPages) (hne : targets ≠ [])
    (hsub : ∀ x ∈ targets, 0 ≤ x ∧ x < (totalPages : Int))
    (hproper : ∃ x : Int, 0 ≤ x ∧ x < (totalPages : Int) ∧ x ∉ targets) :
    split_pdf false totalPages "delete" targets
      = .ok ⟨totalPages, (pages_to_keep "delete" totalPages targets).length,
             pages_to_keep "delete" totalPages targets⟩ ∧
    split_pdf false totalPages "keep" targets
      = .ok ⟨totalPages, (pages_to_keep "keep" totalPages targets).length,
             pages_to_keep "keep" totalPages targets⟩ ∧
    (pages_to_keep "delete" totalPages targets).Pairwise (· < ·) ∧
    (pages_to_keep "keep" totalPages targets).Pairwise (· < ·) ∧
    (∀ x : Int, ¬(x ∈ pages_to_keep "delete" totalPages targets ∧
        x ∈ pages_to_keep "keep" totalPages targets)) ∧
    (∀ x : Int, (x ∈ pages_to_keep "delete" totalPages targets ∨
        x ∈ pages_to_keep "keep" totalPages targets) ↔
      0 ≤ x ∧ x < (totalPages : Int)) := by
  have hanyf : targets.any (fun idx => decide (idx < 0) ||
      decide ((totalPages : Int) ≤ idx)) = false := by
    rw [List.any_eq_false]
    intro x hx
    have := hsub x hx
    simp only [Bool.or_eq_true, decide_eq_true_eq, not_or]
    omega
  have hkeepne : pages_to_keep "keep" totalPages targets ≠ [] := by
    rcases List.exists_mem_of_ne_nil targets hne with ⟨t, ht⟩
    intro hcon
    rw [List.eq_nil_iff_forall_not_mem] at hcon
    exact hcon t ((mem_pages_to_keep_keep totalPages targets t).2 ht)
  have hdelne : pages_to_keep "delete" totalPages targets ≠ [] := by
    obtain ⟨x, hx0, hxn, hxt⟩ := hproper
    intro hcon
    rw [List.eq_nil_iff_forall_not_mem] at hcon
    exact hcon x ((mem_pages_to_keep_delete totalPages targets x).2 ⟨⟨hx0, hxn⟩, hxt⟩)
  refine ⟨?_, ?_, pages_to_keep_delete_pairwise totalPages targets,
    pages_to_keep_keep_pairwise totalPages targets, ?_, ?_⟩
  · unfold split_pdf
    rw [if_neg (by decide), if_neg (by decide), if_neg (by omega), if_neg hne,
      if_neg (by simp [hanyf])]
    dsimp only
    rw [if_neg hdelne]
  · unfold split_pdf
    rw [if_neg (by decide), if_neg (by decide), if_neg (by omega), if_neg hne,
      if_neg (by simp [hanyf])]
    dsimp only
    rw [if_neg hkeepne]
  · rintro x ⟨hd, hk⟩
    have h1 := (mem_pages_to_keep_delete totalPages targets x).1 hd
    have h2 := (mem_pages_to_keep_keep totalPages targets x).1 hk
    exact h1.2 h2
  · intro x
    rw [mem_pages_to_keep_delete, mem_pages_to_keep_keep]
    constructor
    · rintro (⟨hb, _⟩ | ht)
      · exact hb
      · exact hsub x ht
    · intro hb
      by_cases hx : x ∈ targets
      · exact Or.inr hx
      · exact Or.inl ⟨⟨hb.1, hb.2⟩, hx⟩

/-- Witness for C8 on a 3-page document with target `{1}`. -/
theorem claim_C8_split_partition_witness :
    split_pdf false 3 "delete" [1] = .ok ⟨3, 2, [0, 2]⟩ ∧
    split_pdf false 3 "keep" [1] = .ok ⟨3, 1, [1]⟩ := by
  have h := claim_C8_split_partition 3 [1] (by norm_num) (by decide)
    (by decide) ⟨0, by norm_num, by norm_num, by decide⟩
  refine ⟨?_, ?_⟩
  · rw [h.1]
    decide
  · rw [h.2.1]
    decide

/-! ### Claim C5 -/

/-- The target-size loop scans consecutive rungs from `cur`, stopping at the
first rung meeting the budget or at the ladder's end. -/
theorem searchCalls_spec (sizeAt : Nat → ℚ) (t : ℚ) (lastIdx : Nat) :
    ∀ (n cur : Nat), lastIdx - cur ≤ n → cur ≤ lastIdx →
    ∃ k, cur ≤ k ∧ k ≤ lastIdx ∧
      searchCalls sizeAt t lastIdx cur = List.range' cur (k + 1 - cur) ∧
      (∀ j, cur ≤ j → j < k → ¬ sizeAt j ≤ t) ∧
      (sizeAt k ≤ t ∨ k = lastIdx) := by
  intro n
  induction n with
  | zero =>
    intro cur h1 h2
    refine ⟨cur, Nat.le_refl cur, h2, ?_, by omega, Or.inr (by omega)⟩
    rw [searchCalls, if_pos (Or.inr (by omega : lastIdx ≤ cur))]
    have hc : cur + 1 - cur = 1 := by omega
    rw [hc]
    rfl
  | succ n ih =>
    intro cur h1 h2
    by_cases hc : sizeAt cur ≤ t ∨ lastIdx ≤ cur
    · refine ⟨cur, Nat.le_refl cur, h2, ?_, by omega, ?_⟩
      · rw [searchCalls, if_pos hc]
        have hc2 : cur + 1 - cur = 1 := by omega
        rw [hc2]
        rfl
      · rcases hc with h | h
        · exact Or.inl h
        · exact Or.inr (by omega)
    · push_neg at hc
      obtain ⟨hc1, hc2⟩ := hc
      obtain ⟨k, hk1, hk2, hk3, hk4, hk5⟩ := ih (cur + 1) (by omega) (by omega)
      refine ⟨k, by omega, hk2, ?_, ?_, hk5⟩
      · rw [searchCalls, if_neg (by push_neg; exact ⟨hc1, by omega⟩), hk3]
        have h4 : k + 1 - cur = (k + 1 - (cur + 1)) + 1 := by omega
        rw [h4]
        rfl
      · intro j hj1 hj2
        rcases Nat.eq_or_lt_of_le hj1 with rfl | h
        · exact not_le.2 hc1
        · exact hk4 j (by omega) hj2

theorem level_to_start_index_le (level : Int) : level_to_start_index level ≤ 4 := by
  unfold level_to_start_index
  have h1 : 1 ≤ max 1 (min 5 level) := le_max_left _ _
  have h2 : max 1 (min 5 level) ≤ 5 := max_le (by norm_num) (min_le_left _ _)
  omega

/-- C5: without a target size, `compress_pdf_auto` invokes Ghostscript
exactly once, at the rung `level_to_start_index` selects; with a target, the
search starts at rung 0 (the least-compressed preset) regardless of level,
invokes Ghostscript at most `len(COMPRESSION_PRESETS)` times on consecutive
rungs, and stops at the first rung whose output meets the budget or at the
most-compressed rung, whichever comes first. -/
theorem claim_C5_compression_search (level : Int) (sizeAt : Nat → ℚ) (t : ℚ) :
    compress_calls COMPRESSION_PRESETS
        (compress_start_index level none) none sizeAt
      = [level_to_start_index level] ∧
    compress_start_index level (some t) = 0 ∧
    ∃ k, k < COMPRESSION_PRESETS.length ∧
      compress_calls COMPRESSION_PRESETS
          (compress_start_index level (some t)) (some t) sizeAt
        = List.range (k + 1) ∧
      (∀ j, j < k → ¬ sizeAt j ≤ t) ∧
      (sizeAt k ≤ t ∨ k = COMPRESSION_PRESETS.length - 1) := by
  have hlen : COMPRESSION_PRESETS.length = 5 := rfl
  refine ⟨?_, rfl, ?_⟩
  · have hle := level_to_start_index_le level
    unfold compress_calls compress_start_index
    dsimp only
    rw [hlen]
    have hmin : min ((level_to_start_index level : Int)) ((5 - 1 : Nat) : Int)
        = (level_to_start_index level : Int) := by
      rw [min_eq_left]
      exact_mod_cast by omega
    rw [hmin, max_eq_right (Int.ofNat_nonneg _), Int.toNat_natCast]
  · obtain ⟨k, hk1, hk2, hk3, hk4, hk5⟩ :=
      searchCalls_spec sizeAt t (COMPRESSION_PRESETS.length - 1) 4 0
        (by rw [hlen]) (by rw [hlen]; omega)
    refine ⟨k, by omega, ?_, fun j hj => hk4 j (Nat.zero_le j) hj, hk5⟩
    unfold compress_calls compress_start_index
    dsimp only
    have hcur : (max 0 (min (0 : Int) ((COMPRESSION_PRESETS.length - 1 : Nat) : Int))).toNat
        = 0 := by decide
    rw [hcur, hk3, List.range_eq_range']
    congr 1

/-! ### Claim C6 -/

/-- C6, counterexample to the claim as stated: the code reports the
reduction as a percentage, `(1 - new/orig) * 100`, not as the fraction
`1 - new/orig`: for 2 bytes compressed to 1 byte it returns 50, not 1/2. -/
theorem claim_C6_counterexample :
    reduced_percent 2 1 = 50 ∧ ¬ reduced_percent 2 1 = 1 - (1 : ℚ) / 2 := by
  constructor
  · norm_num [reduced_percent]
  · norm_num [reduced_percent]

/-- C6 (amended): `reduced_percent` equals `(1 − newSize/origSize) · 100`
whenever `origSize > 0`, and `0` when `origSize = 0`. -/
theorem claim_C6_reduced_percent (origBytes newBytes : Nat) :
    (0 < origBytes → reduced_percent origBytes newBytes
        = (1 - (newBytes : ℚ) / (origBytes : ℚ)) * 100) ∧
    (origBytes = 0 → reduced_percent origBytes newBytes = 0) := by
  constructor
  · intro h
    rw [reduced_percent, if_pos h]
  · intro h
    rw [reduced_percent, if_neg (by omega)]

/-- Witness for the amended C6. -/
theorem claim_C6_reduced_percent_witness :
    reduced_percent 4 1 = (1 - (1 : ℚ) / 4) * 100 ∧ reduced_percent 0 7 = 0 := by
  constructor
  · rw [(claim_C6_reduced_percent 4 1).1 (by norm_num)]
    norm_num
  · exact (claim_C6_reduced_percent 0 7).2 rfl

/-! ### Claim C4 -/

/-- C4: a `Restricted` request (Mode B, free to open) with neither
`forbidCopy` nor `forbidPrint` set is rejected with the
"no restriction selected" error for every (nonempty) password; validation
fails before the worker starts, so no engine call happens and no protected
output is produced. -/
theorem claim_C4_no_restriction_rejected (viewEntry restrictEntry : String)
    (hpw : trimChars restrictEntry.toList ≠ []) :
    validate_protection_request "restrict" viewEntry restrictEntry false false
      = .error .noRestrictionSelected := by
  unfold validate_protection_request
  rw [if_neg (by decide : ¬("restrict" : String) = "view")]
  dsimp only
  rw [if_neg hpw]
  rfl

/-- Witness for C4. -/
theorem claim_C4_no_restriction_rejected_witness :
    validate_protection_request "restrict" "" "pw" false false
      = .error .noRestrictionSelected :=
  claim_C4_no_restriction_rejected "" "pw" (by decide)

end PDFTool
